import Mathlib

/-!
Verification of the InterParser pipeline: a shallow embedding of
`ccargparse.py` (compile-argument log resolution) and `parse_php.py`
(AST call-site extraction of `zend_parse_parameters` format strings),
with theorems settling the specification's claims against the code.

Python sets are modelled as duplicate-free lists built by
insert-if-absent; Python `dict`s as association lists with unique keys;
Python exceptions as `Except`; the filesystem check
`os.path.exists(os.path.abspath(arg))` as an explicit predicate
parameter `ex`.
-/

set_option maxHeartbeats 1000000

/-- Insertion into a Python `set` modelled as a duplicate-free list:
`s.add(x)` is a no-op when `x` is already present. -/
def insertSet (s : List String) (x : String) : List String :=
  if x ∈ s then s else s ++ [x]

/-- Python `set` equality on lists of strings: extensional, order-independent
(this is the comparison `prev_args == set(args)` performs). -/
def eqset (a b : List String) : Bool :=
  a.all (fun x => x ∈ b) && b.all (fun x => x ∈ a)

/-- Python `line.split(" ")` on a list of characters: fields between single
space characters, empty fields preserved (`"a  b".split(" ") == ["a","","b"]`,
`"".split(" ") == [""]`). -/
def splitCharsOnSpace : List Char → List (List Char)
  | [] => [[]]
  | c :: cs =>
    let r := splitCharsOnSpace cs
    if c = ' ' then [] :: r
    else
      match r with
      | [] => [[c]]
      | f :: rest => (c :: f) :: rest

/-- Python `line.split(" ")`. -/
def splitOnSpace (line : String) : List String :=
  (splitCharsOnSpace line.data).map (fun l => String.mk l)

/-- Python `s.endswith(suf)`. -/
def pyEndsWith (s suf : String) : Bool :=
  suf.data.isSuffixOf s.data

/-- Python `s.startswith(pre)`. -/
def pyStartsWith (s pre : String) : Bool :=
  pre.data.isPrefixOf s.data

/-- The `CompileArgsError` exception raised by `ccargparse.__update_results`. -/
inductive CompileArgsError where
  | mk
deriving DecidableEq, Repr

/-- The per-line scan state of `ccargparse.__process_data_line`: the
`skip_next` flag plus the `source_files` and `args` sets built so far. -/
structure LineState where
  skipNext : Bool
  sourceFiles : List String
  args : List String
deriving DecidableEq, Repr

/-- One iteration of the token loop in `ccargparse.__process_data_line`.
`ex arg` stands for `os.path.exists(os.path.abspath(arg))`. -/
def stepArg (ex : String → Bool) (st : LineState) (arg : String) : LineState :=
  if st.skipNext then { st with skipNext := false }
  else if pyEndsWith arg ".c" || pyEndsWith arg ".cpp" then
    if ex arg then { st with sourceFiles := insertSet st.sourceFiles arg }
    else st
  else if arg = "-c" || arg = "-emit-ast" || arg = "-fsyntax-only" then st
  else if arg = "-o" then { st with skipNext := true }
  else { st with args := insertSet st.args arg }

/-- The token loop of `ccargparse.__process_data_line` over a token list. -/
def processTokens (ex : String → Bool) (toks : List String) : LineState :=
  toks.foldl (stepArg ex) ⟨false, [], []⟩

/-- `ccargparse.__process_data_line`: split the raw line on single spaces,
classify the tokens, and emit one `(source_file, args)` pair per source
file found on the line. -/
def process_data_line (ex : String → Bool) (line : String) :
    List (String × List String) :=
  let st := processTokens ex (splitOnSpace line)
  st.sourceFiles.map (fun f => (f, st.args))

/-- `ccargparse.__update_results`: fold the pairs of one line into the
result dictionary; a key seen before with a set-unequal argument set
raises `CompileArgsError`. -/
def update_results (res : List (String × List String)) :
    List (String × List String) →
    Except CompileArgsError (List (String × List String))
  | [] => .ok res
  | (f, args) :: rest =>
    match res.lookup f with
    | some prev =>
      if eqset prev args then update_results res rest
      else .error .mk
    | none => update_results (res ++ [(f, args)]) rest

/-- The line loop of `ccargparse.load_project_data`. -/
def load_lines (ex : String → Bool) (res : List (String × List String)) :
    List String → Except CompileArgsError (List (String × List String))
  | [] => .ok res
  | line :: rest =>
    match update_results res (process_data_line ex line) with
    | .error e => .error e
    | .ok res' => load_lines ex res' rest

/-- `ccargparse.load_project_data` on the list of lines Python's file
iteration yields (each line keeps its trailing newline). -/
def load_project_data (ex : String → Bool) (lines : List String) :
    Except CompileArgsError (List (String × List String)) :=
  load_lines ex [] lines

/-- All `(source_file, args)` derivations of a log, in processing order. -/
def derivs (ex : String → Bool) (lines : List String) :
    List (String × List String) :=
  (lines.map (process_data_line ex)).flatten

/-- Python exceptions that escape the scanning code of `parse_php.py`:
`IndexError` from positional child/list access, and the
`TranslationUnitLoadError` that `cindex.Index.parse` raises when a source
file cannot be parsed. -/
inductive PyErr where
  | indexError
  | tuLoadError
deriving DecidableEq, Repr

/-- The cursor-kind tags `parse_php.py` inspects; every other kind is
`OTHER`. -/
inductive CursorKind where
  | CALL_EXPR
  | STRING_LITERAL
  | FUNCTION_DECL
  | UNEXPOSED_EXPR
  | DECL_REF_EXPR
  | OTHER
deriving DecidableEq, Repr

/-- A clang AST cursor as `parse_php.py` consumes it: kind tag, `spelling`,
`displayname`, the name of the file of its source location, the spellings of
its lexical tokens (`none` models the `None` that the bundled
`cindex.get_tokens` yields when the extent has zero tokens), and its ordered
children. -/
inductive AstNode where
  | node (kind : CursorKind) (spelling : String) (displayname : String)
      (locFile : String) (tokens : List (Option String))
      (children : List AstNode) : AstNode

def AstNode.kind : AstNode → CursorKind
  | .node k _ _ _ _ _ => k

def AstNode.spelling : AstNode → String
  | .node _ s _ _ _ _ => s

def AstNode.displayname : AstNode → String
  | .node _ _ d _ _ _ => d

def AstNode.locFile : AstNode → String
  | .node _ _ _ f _ _ => f

def AstNode.tokens : AstNode → List (Option String)
  | .node _ _ _ _ t _ => t

def AstNode.children : AstNode → List AstNode
  | .node _ _ _ _ _ c => c

mutual

/-- Number of nodes in a tree (the breadth-first traversal's measure). -/
def AstNode.size : AstNode → Nat
  | .node _ _ _ _ _ cs => 1 + sizeL cs

/-- Total number of nodes in a forest. -/
def sizeL : List AstNode → Nat
  | [] => 0
  | c :: cs => AstNode.size c + sizeL cs

end

theorem sizeL_append (a b : List AstNode) :
    sizeL (a ++ b) = sizeL a + sizeL b := by
  induction a with
  | nil => simp [sizeL]
  | cons x xs ih => simp [sizeL, ih]; omega

theorem AstNode.size_eq (n : AstNode) : n.size = 1 + sizeL n.children := by
  cases n
  rfl

/-- `parse_php.ZEND_FUNC`. -/
def ZEND_FUNC : String := "zend_parse_parameters"

/-- `parse_php.get_child`: `list(node.get_children())[idx]`; `none` models
the `IndexError` an out-of-range index raises. -/
def get_child (n : AstNode) (idx : Nat) : Option AstNode :=
  n.children.get? idx

/-- `list(node.get_tokens())` under the bundled `cindex.py`: when
`clang_tokenize` reports zero tokens the generator yields a single `None`,
so the returned list is never empty. -/
def get_tokens (n : AstNode) : List (Option String) :=
  if n.tokens.isEmpty then [none] else n.tokens

/-- Python `spelling[1:-1]`: drop the first and last character. -/
def stripQuotes (s : String) : String :=
  String.mk (s.data.drop 1).dropLast

/-- The three outcomes of `parse_php.extract_fmt_str`: a returned string,
the internally-raised `VariableArgumentError`, or an uncaught
`IndexError`. -/
inductive ExtractResult where
  | ok (s : String)
  | varArg
  | idxErr
deriving DecidableEq, Repr

/-- `parse_php.extract_fmt_str` on `func_call_nodes`, the child list of a
call expression: take the third child, unwrap two levels of single-child
wrapping, require a string literal, then read its first token and strip the
quote characters. -/
def extract_fmt_str (nodes : List AstNode) : ExtractResult :=
  match nodes.get? 2 with
  | none => .idxErr
  | some n2 =>
    match get_child n2 0 with
    | none => .idxErr
    | some unex =>
      match get_child unex 0 with
      | none => .idxErr
      | some tkn =>
        if tkn.kind ≠ CursorKind.STRING_LITERAL then .varArg
        else
          match (get_tokens tkn).get? 0 with
          | none => .idxErr
          | some none => .ok ""
          | some (some sp) => .ok (stripQuotes sp)

/-- The callee lookup of `parse_php.process_function`:
`get_child(unexposed_exprs[0], 0).displayname`; `none` models the
`IndexError` when the call node or its first child has no children. -/
def calleeName (n : AstNode) : Option String :=
  match n.children.get? 0 with
  | none => none
  | some c0 => (get_child c0 0).map AstNode.displayname

/-- The breadth-first `while not to_process.empty()` loop of
`parse_php.process_function`: `q` is the FIFO queue, `fs` the `fmt_strs`
set, `cnt` the number of `VAR_ARG_COUNT` increments so far. -/
def processLoop (q : List AstNode) (fs : List String) (cnt : Nat) :
    Except PyErr (List String × Nat) :=
  match q with
  | [] => .ok (fs, cnt)
  | n :: rest =>
    if n.kind = CursorKind.CALL_EXPR then
      match calleeName n with
      | none => .error .indexError
      | some nm =>
        if nm = ZEND_FUNC then
          match extract_fmt_str n.children with
          | .idxErr => .error .indexError
          | .varArg => processLoop rest fs (cnt + 1)
          | .ok s => processLoop rest (if s.length ≠ 0 then insertSet fs s else fs) cnt
        else processLoop (rest ++ n.children) fs cnt
    else processLoop (rest ++ n.children) fs cnt
termination_by sizeL q
decreasing_by
  all_goals simp only [sizeL, sizeL_append, AstNode.size_eq]
  all_goals omega

/-- `parse_php.process_function`: run the breadth-first scan from the
function's cursor; return the collected set when non-empty, `None`
otherwise.  The `Nat` is the number of `VAR_ARG_COUNT` increments this
call performed. -/
def process_function (fc : AstNode) : Except PyErr (Option (List String) × Nat) :=
  match processLoop [fc] [] 0 with
  | .error e => .error e
  | .ok (fs, cnt) => .ok ((if fs.length ≠ 0 then some fs else none), cnt)

/-- Python `dict` assignment `res[k] = v` on an association list with
unique keys: overwrite if present, append otherwise. -/
def insertDict (res : List (String × List String)) (k : String)
    (v : List String) : List (String × List String) :=
  if res.any (fun p => p.1 = k) then
    res.map (fun p => if p.1 = k then (k, v) else p)
  else res ++ [(k, v)]

/-- The cursor loop of `parse_php.process_all_functions` over the
translation unit's top-level cursors: keep function declarations passing
the file filter and (under `globals_only`) the `zif_` name filter, scan
each with `process_function`, and record non-`None` results under the
function's spelling. -/
def paf_loop (fileFilter : Option String) (globalsOnly : Bool) :
    List AstNode → List (String × List String) → Nat →
    Except PyErr (List (String × List String) × Nat)
  | [], res, cnt => .ok (res, cnt)
  | c :: cs, res, cnt =>
    if c.kind = CursorKind.FUNCTION_DECL then
      if (match fileFilter with
          | some f => c.locFile != f
          | none => false) then paf_loop fileFilter globalsOnly cs res cnt
      else if globalsOnly && !(pyStartsWith c.spelling "zif_") then
        paf_loop fileFilter globalsOnly cs res cnt
      else
        match process_function c with
        | .error e => .error e
        | .ok (none, d) => paf_loop fileFilter globalsOnly cs res (cnt + d)
        | .ok (some fs, d) =>
          paf_loop fileFilter globalsOnly cs (insertDict res c.spelling fs) (cnt + d)
    else paf_loop fileFilter globalsOnly cs res cnt

/-- `parse_php.process_all_functions` (the `Nat` accumulates the
`VAR_ARG_COUNT` increments of the scanned functions). -/
def process_all_functions (root : AstNode) (fileFilter : Option String)
    (globalsOnly : Bool) : Except PyErr (List (String × List String) × Nat) :=
  paf_loop fileFilter globalsOnly root.children [] 0

/-- One output line of `parse_php.write_output`:
`"%s %s\n" % (func_name, " ".join(fmt_strs))`. -/
def renderLine (p : String × List String) : String :=
  p.1 ++ " " ++ String.intercalate " " p.2 ++ "\n"

/-- `parse_php.write_output`: the file is opened in append mode (`"ab"`),
so the new block — a `# <src_file>` header line and one line per recorded
function — is concatenated after the file's previous content. -/
def write_output (src_file : String) (data : List (String × List String))
    (content : String) : String :=
  content ++ ("# " ++ src_file ++ "\n") ++ String.join (data.map renderLine)

/-- The block `write_output` appends for one source file. -/
def renderBlock (b : String × List (String × List String)) : String :=
  "# " ++ b.1 ++ "\n" ++ String.join (b.2.map renderLine)

/-- The process-all-files loop of `parse_php.main`: for each
`(src_file, args)` record, parse the file (the external AST Provider
`parse` models `clang.Index.create().parse`; its exceptions are uncaught),
scan it, and append a block for it when at least one function matched.
Returns the output file's content together with either the final
`(file_count, func_count, VAR_ARG_COUNT)` counters or the uncaught
exception that aborted the run. -/
def runAllFiles (parse : String → List String → Except PyErr AstNode)
    (globalsOnly : Bool) :
    List (String × List String) → String → Nat → Nat → Nat →
    String × Except PyErr (Nat × Nat × Nat)
  | [], content, fileC, funcC, varC => (content, .ok (fileC, funcC, varC))
  | (src, args) :: rest, content, fileC, funcC, varC =>
    match parse src args with
    | .error e => (content, .error e)
    | .ok tu =>
      match process_all_functions tu (some src) globalsOnly with
      | .error e => (content, .error e)
      | .ok (data, d) =>
        if data.length ≠ 0 then
          runAllFiles parse globalsOnly rest (write_output src data content)
            (fileC + 1) (funcC + data.length) (varC + d)
        else
          runAllFiles parse globalsOnly rest content fileC funcC (varC + d)

/-- A call expression whose unwrapped callee is the sentinel function:
the traversal never descends into such a node's children. -/
def isSentinel (n : AstNode) : Bool :=
  n.kind = CursorKind.CALL_EXPR &&
    (match calleeName n with
     | some nm => nm = ZEND_FUNC
     | none => false)

/-- A node at which the breadth-first traversal does not enqueue the
children: a sentinel call (handled terminally) or a call expression whose
callee lookup raises `IndexError` before any child is enqueued. -/
def stopNode (n : AstNode) : Bool :=
  n.kind = CursorKind.CALL_EXPR &&
    (match calleeName n with
     | some nm => nm = ZEND_FUNC
     | none => true)

/-- A node whose processing raises an uncaught `IndexError`: a call
expression whose callee lookup fails, or a sentinel call whose
format-string extraction goes out of range. -/
def badNode (n : AstNode) : Bool :=
  n.kind = CursorKind.CALL_EXPR &&
    (match calleeName n with
     | none => true
     | some nm => nm = ZEND_FUNC && extract_fmt_str n.children = ExtractResult.idxErr)

/-- A sentinel call that contributes the non-empty literal `s` to the
enclosing function's format-string set. -/
def goodNode (n : AstNode) (s : String) : Prop :=
  isSentinel n = true ∧ extract_fmt_str n.children = ExtractResult.ok s ∧ s ≠ ""

/-- The nodes the breadth-first traversal of `process_function` visits:
reflexive descent through children that stops below `stopNode`s. -/
inductive Reach : AstNode → AstNode → Prop where
  | refl (n : AstNode) : Reach n n
  | step {n c m : AstNode} : stopNode n = false → c ∈ n.children →
      Reach c m → Reach n m


/-- Validated-load invariant: every stored record comes from a processed
derivation, keys are unique, and every processed derivation is represented
by a set-equal stored record. -/
def LoadInv (seen res : List (String × List String)) : Prop :=
  (res.map Prod.fst).Nodup ∧ (∀ p ∈ res, p ∈ seen) ∧
    (∀ p ∈ seen, ∃ b, res.lookup p.1 = some b ∧ eqset b p.2 = true)

/-- Two derivations of the same source file with set-unequal argument
sets. -/
def Conflict (l : List (String × List String)) : Prop :=
  ∃ p ∈ l, ∃ q ∈ l, p.1 = q.1 ∧ eqset p.2 q.2 = false

/-- An existence predicate under which every path exists on disk. -/
def exTrue : String → Bool := fun _ => true

/-- A string-literal cursor carrying one lexical token. -/
def litTok (t : String) : AstNode :=
  .node .STRING_LITERAL "" "" "b.c" [some t] []

/-- A reference cursor whose display name is the referenced symbol. -/
def refN (nm : String) : AstNode :=
  .node .DECL_REF_EXPR nm nm "b.c" [] []

/-- A single-child implicit-conversion wrapper cursor. -/
def wrapN (c : AstNode) : AstNode :=
  .node .UNEXPOSED_EXPR "" "" "b.c" [] [c]

/-- A call cursor in the shape `parse_php.py` expects: wrapped callee
reference, a second argument, and the format-string argument as the third
child under two wrappers. -/
def callN (fn : String) (argName : String) (arg : AstNode) : AstNode :=
  .node .CALL_EXPR "" "" "b.c" []
    [wrapN (refN fn), wrapN (refN argName), wrapN (wrapN arg)]

/-- A function-definition cursor. -/
def funcN (nm : String) (body : List AstNode) : AstNode :=
  .node .FUNCTION_DECL nm nm "b.c" [] body

/-- A function calling the sentinel twice with the distinct literals
`"zs"` and `"ss"`. -/
def ambF : AstNode :=
  funcN "amb" [callN ZEND_FUNC "a" (litTok "\"zs\""),
    callN ZEND_FUNC "b" (litTok "\"ss\"")]

/-- A function calling the sentinel twice (two distinct call cursors) with
the same literal `"zs"`. -/
def sameF : AstNode :=
  funcN "same" [callN ZEND_FUNC "a" (litTok "\"zs\""),
    callN ZEND_FUNC "b" (litTok "\"zs\"")]

/-- A function whose only sentinel call passes the empty literal `""`. -/
def emptyLitF : AstNode :=
  funcN "emp" [callN ZEND_FUNC "a" (litTok "\"\"")]

/-- A sentinel call whose format-string argument unwraps to a variable
reference rather than a string literal. -/
def varArgCall : AstNode := callN ZEND_FUNC "a" (refN "v")

/-- A function whose only sentinel call passes a variable. -/
def varF : AstNode := funcN "var" [varArgCall]

/-- A translation-unit root for `b.c` with one exported function that
calls the sentinel with the literal `"zs"`. -/
def okTU : AstNode :=
  .node .OTHER "" "" "b.c" []
    [funcN "zif_foo" [callN ZEND_FUNC "a" (litTok "\"zs\"")]]

/-- An AST Provider that fails to parse `a.c` and parses `b.c` to
`okTU`. -/
def parseW : String → List String → Except PyErr AstNode :=
  fun src _ => if src = "a.c" then .error .tuLoadError else .ok okTU

/-- A compile-record list naming the unparsable `a.c` before `b.c`. -/
def compW : List (String × List String) := [("a.c", []), ("b.c", [])]

theorem mem_insertSet (s : List String) (v x : String) :
    x ∈ insertSet s v ↔ x ∈ s ∨ x = v := by
  unfold insertSet
  by_cases h : v ∈ s
  · simp only [if_pos h]
    constructor
    · exact fun hx => Or.inl hx
    · rintro (hx | rfl)
      · exact hx
      · exact h
  · simp [if_neg h]

theorem insertSet_nodup (s : List String) (v : String) (h : s.Nodup) :
    (insertSet s v).Nodup := by
  unfold insertSet
  by_cases hv : v ∈ s
  · simpa [if_pos hv]
  · simp [if_neg hv, List.nodup_append, h, hv]

theorem eqset_iff (a b : List String) :
    eqset a b = true ↔ ∀ x, x ∈ a ↔ x ∈ b := by
  unfold eqset
  simp only [Bool.and_eq_true, List.all_eq_true, decide_eq_true_eq]
  constructor
  · rintro ⟨h1, h2⟩ x
    exact ⟨fun hx => h1 x hx, fun hx => h2 x hx⟩
  · intro h
    exact ⟨fun x hx => (h x).mp hx, fun x hx => (h x).mpr hx⟩

theorem eqset_refl (a : List String) : eqset a a = true := by
  rw [eqset_iff]
  intro x
  exact Iff.rfl

theorem eqset_trans (a b c : List String) (h1 : eqset a b = true)
    (h2 : eqset b c = true) : eqset a c = true := by
  rw [eqset_iff] at h1 h2 ⊢
  intro x
  exact (h1 x).trans (h2 x)

theorem eqset_symm (a b : List String) (h : eqset a b = true) :
    eqset b a = true := by
  rw [eqset_iff] at h ⊢
  intro x
  exact (h x).symm

theorem reach_iff (n m : AstNode) :
    Reach n m ↔ m = n ∨ (stopNode n = false ∧ ∃ c ∈ n.children, Reach c m) := by
  constructor
  · intro h
    cases h with
    | refl => exact Or.inl rfl
    | step hs hc hr => exact Or.inr ⟨hs, _, hc, hr⟩
  · rintro (rfl | ⟨hs, c, hc, hr⟩)
    · exact Reach.refl m
    · exact Reach.step hs hc hr

theorem exists_reach_of_stop (n : AstNode) (P : AstNode → Prop)
    (hs : stopNode n = true) : (∃ m, Reach n m ∧ P m) ↔ P n := by
  constructor
  · rintro ⟨m, hr, hp⟩
    rcases (reach_iff n m).mp hr with rfl | ⟨hs', _⟩
    · exact hp
    · rw [hs] at hs'
      exact absurd hs' (by simp)
  · intro hp
    exact ⟨n, Reach.refl n, hp⟩

theorem exists_reach_of_nostop (n : AstNode) (P : AstNode → Prop)
    (hs : stopNode n = false) :
    (∃ m, Reach n m ∧ P m) ↔ P n ∨ ∃ m, (∃ c ∈ n.children, Reach c m) ∧ P m := by
  constructor
  · rintro ⟨m, hr, hp⟩
    rcases (reach_iff n m).mp hr with rfl | ⟨_, c, hc, hr'⟩
    · exact Or.inl hp
    · exact Or.inr ⟨m, ⟨c, hc, hr'⟩, hp⟩
  · rintro (hp | ⟨m, ⟨c, hc, hr⟩, hp⟩)
    · exact ⟨n, Reach.refl n, hp⟩
    · exact ⟨m, Reach.step hs hc hr, hp⟩

theorem exists_reach_cons (n : AstNode) (rest : List AstNode)
    (P : AstNode → Prop) :
    (∃ m, (∃ x ∈ n :: rest, Reach x m) ∧ P m) ↔
      (∃ m, Reach n m ∧ P m) ∨ (∃ m, (∃ x ∈ rest, Reach x m) ∧ P m) := by
  constructor
  · rintro ⟨m, ⟨x, hx, hr⟩, hp⟩
    rcases List.mem_cons.mp hx with rfl | hx'
    · exact Or.inl ⟨m, hr, hp⟩
    · exact Or.inr ⟨m, ⟨x, hx', hr⟩, hp⟩
  · rintro (⟨m, hr, hp⟩ | ⟨m, ⟨x, hx, hr⟩, hp⟩)
    · exact ⟨m, ⟨n, List.mem_cons_self n rest, hr⟩, hp⟩
    · exact ⟨m, ⟨x, List.mem_cons_of_mem n hx, hr⟩, hp⟩

theorem exists_reach_append (a b : List AstNode) (P : AstNode → Prop) :
    (∃ m, (∃ x ∈ a ++ b, Reach x m) ∧ P m) ↔
      (∃ m, (∃ x ∈ a, Reach x m) ∧ P m) ∨ (∃ m, (∃ x ∈ b, Reach x m) ∧ P m) := by
  constructor
  · rintro ⟨m, ⟨x, hx, hr⟩, hp⟩
    rcases List.mem_append.mp hx with hx' | hx'
    · exact Or.inl ⟨m, ⟨x, hx', hr⟩, hp⟩
    · exact Or.inr ⟨m, ⟨x, hx', hr⟩, hp⟩
  · rintro (⟨m, ⟨x, hx, hr⟩, hp⟩ | ⟨m, ⟨x, hx, hr⟩, hp⟩)
    · exact ⟨m, ⟨x, List.mem_append_left b hx, hr⟩, hp⟩
    · exact ⟨m, ⟨x, List.mem_append_right a hx, hr⟩, hp⟩

theorem processLoop_nil (fs : List String) (cnt : Nat) :
    processLoop [] fs cnt = .ok (fs, cnt) := by
  rw [processLoop.eq_def]

theorem processLoop_notcall (n : AstNode) (rest : List AstNode)
    (fs : List String) (cnt : Nat) (hk : n.kind ≠ CursorKind.CALL_EXPR) :
    processLoop (n :: rest) fs cnt = processLoop (rest ++ n.children) fs cnt := by
  rw [processLoop.eq_def]
  simp [hk]

theorem processLoop_noname (n : AstNode) (rest : List AstNode)
    (fs : List String) (cnt : Nat) (hk : n.kind = CursorKind.CALL_EXPR)
    (hc : calleeName n = none) :
    processLoop (n :: rest) fs cnt = .error .indexError := by
  rw [processLoop.eq_def]
  simp [hk, hc]

theorem processLoop_notzend (n : AstNode) (rest : List AstNode)
    (fs : List String) (cnt : Nat) (nm : String)
    (hk : n.kind = CursorKind.CALL_EXPR) (hc : calleeName n = some nm)
    (hz : nm ≠ ZEND_FUNC) :
    processLoop (n :: rest) fs cnt = processLoop (rest ++ n.children) fs cnt := by
  rw [processLoop.eq_def]
  simp [hk, hc, hz]

theorem processLoop_idx (n : AstNode) (rest : List AstNode)
    (fs : List String) (cnt : Nat)
    (hk : n.kind = CursorKind.CALL_EXPR) (hc : calleeName n = some ZEND_FUNC)
    (he : extract_fmt_str n.children = .idxErr) :
    processLoop (n :: rest) fs cnt = .error .indexError := by
  rw [processLoop.eq_def]
  simp [hk, hc, he]

theorem processLoop_var (n : AstNode) (rest : List AstNode)
    (fs : List String) (cnt : Nat)
    (hk : n.kind = CursorKind.CALL_EXPR) (hc : calleeName n = some ZEND_FUNC)
    (he : extract_fmt_str n.children = .varArg) :
    processLoop (n :: rest) fs cnt = processLoop rest fs (cnt + 1) := by
  rw [processLoop.eq_def]
  simp [hk, hc, he]

theorem processLoop_okstr (n : AstNode) (rest : List AstNode)
    (fs : List String) (cnt : Nat) (s : String)
    (hk : n.kind = CursorKind.CALL_EXPR) (hc : calleeName n = some ZEND_FUNC)
    (he : extract_fmt_str n.children = .ok s) :
    processLoop (n :: rest) fs cnt =
      processLoop rest (if s.length ≠ 0 then insertSet fs s else fs) cnt := by
  rw [processLoop.eq_def]
  simp [hk, hc, he]

theorem stopNode_of_zend (n : AstNode) (hk : n.kind = CursorKind.CALL_EXPR)
    (hc : calleeName n = some ZEND_FUNC) : stopNode n = true := by
  simp [stopNode, hk, hc]

theorem badNode_false_cases (n : AstNode) :
    (n.kind ≠ CursorKind.CALL_EXPR → badNode n = false) ∧
    (∀ nm, calleeName n = some nm → nm ≠ ZEND_FUNC → badNode n = false) ∧
    (calleeName n = some ZEND_FUNC →
      extract_fmt_str n.children ≠ .idxErr → badNode n = false) := by
  refine ⟨fun hk => ?_, fun nm hc hz => ?_, fun hc he => ?_⟩
  · simp [badNode, hk]
  · simp [badNode, hc, hz]
  · simp [badNode, hc, he]

theorem processLoop_error_iff (q : List AstNode) (fs : List String) (cnt : Nat) :
    (∃ e, processLoop q fs cnt = .error e) ↔
      ∃ m, (∃ n ∈ q, Reach n m) ∧ badNode m = true := by
  match q with
  | [] =>
    rw [processLoop_nil]
    simp
  | n :: rest =>
    rw [exists_reach_cons]
    by_cases hk : n.kind = CursorKind.CALL_EXPR
    · cases hc : calleeName n with
      | none =>
        rw [processLoop_noname n rest fs cnt hk hc]
        have hb : badNode n = true := by simp [badNode, hk, hc]
        have hs : stopNode n = true := by simp [stopNode, hk, hc]
        rw [exists_reach_of_stop n _ hs]
        simp [hb]
      | some nm =>
        by_cases hz : nm = ZEND_FUNC
        · subst hz
          cases he : extract_fmt_str n.children with
          | idxErr =>
            rw [processLoop_idx n rest fs cnt hk hc he]
            have hb : badNode n = true := by simp [badNode, hk, hc, he]
            rw [exists_reach_of_stop n _ (stopNode_of_zend n hk hc)]
            simp [hb]
          | varArg =>
            rw [processLoop_var n rest fs cnt hk hc he]
            have hb : badNode n = false := by simp [badNode, hc, he]
            rw [exists_reach_of_stop n _ (stopNode_of_zend n hk hc)]
            rw [processLoop_error_iff rest fs (cnt + 1)]
            simp [hb]
          | ok s =>
            rw [processLoop_okstr n rest fs cnt s hk hc he]
            have hb : badNode n = false := by simp [badNode, hc, he]
            rw [exists_reach_of_stop n _ (stopNode_of_zend n hk hc)]
            rw [processLoop_error_iff rest _ cnt]
            simp [hb]
        · rw [processLoop_notzend n rest fs cnt nm hk hc hz]
          have hb : badNode n = false := by simp [badNode, hc, hz]
          have hs : stopNode n = false := by simp [stopNode, hk, hc, hz]
          rw [processLoop_error_iff (rest ++ n.children) fs cnt]
          rw [exists_reach_append, exists_reach_of_nostop n _ hs]
          simp only [hb, Bool.false_eq_true, false_or]
          exact or_comm
    · rw [processLoop_notcall n rest fs cnt hk]
      have hb : badNode n = false := by simp [badNode, hk]
      have hs : stopNode n = false := by simp [stopNode, hk]
      rw [processLoop_error_iff (rest ++ n.children) fs cnt]
      rw [exists_reach_append, exists_reach_of_nostop n _ hs]
      simp only [hb, Bool.false_eq_true, false_or]
      exact or_comm
termination_by sizeL q
decreasing_by
  all_goals simp only [sizeL, sizeL_append, AstNode.size_eq]
  all_goals omega

theorem strlen_ne (s : String) : (s.length ≠ 0) ↔ s ≠ "" := by
  cases s with
  | mk l =>
    cases l
    · simp [String.length]
    · simp [String.length, String.ext_iff]

theorem goodNode_of_ok (n : AstNode) (s t : String)
    (hk : n.kind = CursorKind.CALL_EXPR) (hc : calleeName n = some ZEND_FUNC)
    (he : extract_fmt_str n.children = .ok t) :
    goodNode n s ↔ s = t ∧ s ≠ "" := by
  simp only [goodNode, isSentinel, hk, hc, he]
  constructor
  · rintro ⟨-, h2, h3⟩
    exact ⟨((ExtractResult.ok.injEq t s).mp h2).symm, h3⟩
  · rintro ⟨rfl, h3⟩
    simp [ZEND_FUNC, h3]

theorem goodNode_not_var (n : AstNode) (s : String)
    (he : extract_fmt_str n.children = .varArg) : ¬ goodNode n s := by
  rintro ⟨-, h2, -⟩
  rw [he] at h2
  exact ExtractResult.noConfusion h2

theorem goodNode_not_call (n : AstNode) (s : String)
    (hk : n.kind ≠ CursorKind.CALL_EXPR) : ¬ goodNode n s := by
  rintro ⟨h1, -, -⟩
  simp [isSentinel, hk] at h1

theorem goodNode_not_zend (n : AstNode) (s : String) (nm : String)
    (hc : calleeName n = some nm) (hz : nm ≠ ZEND_FUNC) : ¬ goodNode n s := by
  rintro ⟨h1, -, -⟩
  simp [isSentinel, hc, hz] at h1

theorem goodNode_not_name (n : AstNode) (s : String)
    (hc : calleeName n = none) : ¬ goodNode n s := by
  rintro ⟨h1, -, -⟩
  simp [isSentinel, hc] at h1

theorem processLoop_ok_mem (q : List AstNode) (fs : List String) (cnt : Nat)
    (fs' : List String) (cnt' : Nat)
    (h : processLoop q fs cnt = .ok (fs', cnt')) (s : String) :
    s ∈ fs' ↔ s ∈ fs ∨ ∃ m, (∃ n ∈ q, Reach n m) ∧ goodNode m s := by
  match q with
  | [] =>
    rw [processLoop_nil] at h
    injection h with h
    injection h with h1 h2
    subst h1
    simp
  | n :: rest =>
    rw [exists_reach_cons]
    by_cases hk : n.kind = CursorKind.CALL_EXPR
    · cases hc : calleeName n with
      | none =>
        rw [processLoop_noname n rest fs cnt hk hc] at h
        exact absurd h (by simp)
      | some nm =>
        by_cases hz : nm = ZEND_FUNC
        · subst hz
          cases he : extract_fmt_str n.children with
          | idxErr =>
            rw [processLoop_idx n rest fs cnt hk hc he] at h
            exact absurd h (by simp)
          | varArg =>
            rw [processLoop_var n rest fs cnt hk hc he] at h
            rw [exists_reach_of_stop n _ (stopNode_of_zend n hk hc)]
            rw [processLoop_ok_mem rest fs (cnt + 1) fs' cnt' h s]
            rw [or_iff_right (goodNode_not_var n s he)]
          | ok t =>
            rw [processLoop_okstr n rest fs cnt t hk hc he] at h
            rw [exists_reach_of_stop n _ (stopNode_of_zend n hk hc)]
            rw [processLoop_ok_mem rest _ cnt fs' cnt' h s]
            rw [goodNode_of_ok n s t hk hc he]
            by_cases ht : t.length ≠ 0
            · rw [if_pos ht] at *
              rw [mem_insertSet]
              rw [strlen_ne] at ht
              constructor
              · rintro (hm | hrest)
                · rcases hm with hm | rfl
                  · exact Or.inl hm
                  · exact Or.inr (Or.inl ⟨rfl, ht⟩)
                · exact Or.inr (Or.inr hrest)
              · rintro (hm | ⟨rfl, hne⟩ | hrest)
                · exact Or.inl (Or.inl hm)
                · exact Or.inl (Or.inr rfl)
                · exact Or.inr hrest
            · rw [if_neg ht] at *
              rw [strlen_ne] at ht
              push_neg at ht
              subst ht
              constructor
              · rintro (hm | hrest)
                · exact Or.inl hm
                · exact Or.inr (Or.inr hrest)
              · rintro (hm | ⟨rfl, hne⟩ | hrest)
                · exact Or.inl hm
                · exact absurd rfl hne
                · exact Or.inr hrest
        · rw [processLoop_notzend n rest fs cnt nm hk hc hz] at h
          have hs : stopNode n = false := by simp [stopNode, hk, hc, hz]
          rw [processLoop_ok_mem (rest ++ n.children) fs cnt fs' cnt' h s]
          rw [exists_reach_append, exists_reach_of_nostop n _ hs]
          rw [or_iff_right (goodNode_not_zend n s nm hc hz)]
          exact or_congr_right or_comm
    · rw [processLoop_notcall n rest fs cnt hk] at h
      have hs : stopNode n = false := by simp [stopNode, hk]
      rw [processLoop_ok_mem (rest ++ n.children) fs cnt fs' cnt' h s]
      rw [exists_reach_append, exists_reach_of_nostop n _ hs]
      rw [or_iff_right (goodNode_not_call n s hk)]
      exact or_congr_right or_comm
termination_by sizeL q
decreasing_by
  all_goals simp only [sizeL, sizeL_append, AstNode.size_eq]
  all_goals omega

theorem processLoop_ok_nodup (q : List AstNode) (fs : List String) (cnt : Nat)
    (fs' : List String) (cnt' : Nat)
    (h : processLoop q fs cnt = .ok (fs', cnt')) (hnd : fs.Nodup) :
    fs'.Nodup := by
  match q with
  | [] =>
    rw [processLoop_nil] at h
    injection h with h
    injection h with h1 h2
    subst h1
    exact hnd
  | n :: rest =>
    by_cases hk : n.kind = CursorKind.CALL_EXPR
    · cases hc : calleeName n with
      | none =>
        rw [processLoop_noname n rest fs cnt hk hc] at h
        exact absurd h (by simp)
      | some nm =>
        by_cases hz : nm = ZEND_FUNC
        · subst hz
          cases he : extract_fmt_str n.children with
          | idxErr =>
            rw [processLoop_idx n rest fs cnt hk hc he] at h
            exact absurd h (by simp)
          | varArg =>
            rw [processLoop_var n rest fs cnt hk hc he] at h
            exact processLoop_ok_nodup rest fs (cnt + 1) fs' cnt' h hnd
          | ok t =>
            rw [processLoop_okstr n rest fs cnt t hk hc he] at h
            refine processLoop_ok_nodup rest _ cnt fs' cnt' h ?_
            by_cases ht : t.length ≠ 0
            · rw [if_pos ht]
              exact insertSet_nodup fs t hnd
            · rw [if_neg ht]
              exact hnd
        · rw [processLoop_notzend n rest fs cnt nm hk hc hz] at h
          exact processLoop_ok_nodup (rest ++ n.children) fs cnt fs' cnt' h hnd
    · rw [processLoop_notcall n rest fs cnt hk] at h
      exact processLoop_ok_nodup (rest ++ n.children) fs cnt fs' cnt' h hnd
termination_by sizeL q
decreasing_by
  all_goals simp only [sizeL, sizeL_append, AstNode.size_eq]
  all_goals omega

theorem lookup_append_some (l1 l2 : List (String × List String)) (k : String)
    (b : List String) (h : l1.lookup k = some b) :
    (l1 ++ l2).lookup k = some b := by
  induction l1 with
  | nil => simp [List.lookup] at h
  | cons p t ih =>
    rcases p with ⟨k1, v1⟩
    simp only [List.lookup, List.cons_append] at h ⊢
    cases hk : (k == k1)
    · rw [hk] at h
      simp only [Bool.false_eq_true] at *
      exact ih h
    · rw [hk] at h
      simpa using h

theorem lookup_append_none (l1 l2 : List (String × List String)) (k : String)
    (h : l1.lookup k = none) : (l1 ++ l2).lookup k = l2.lookup k := by
  induction l1 with
  | nil => simp
  | cons p t ih =>
    rcases p with ⟨k1, v1⟩
    simp only [List.lookup, List.cons_append] at h ⊢
    cases hk : (k == k1)
    · rw [hk] at h
      simp only [Bool.false_eq_true] at *
      exact ih h
    · rw [hk] at h
      simp at h

theorem lookup_some_mem (l : List (String × List String)) (k : String)
    (b : List String) (h : l.lookup k = some b) : (k, b) ∈ l := by
  induction l with
  | nil => simp [List.lookup] at h
  | cons p t ih =>
    rcases p with ⟨k1, v1⟩
    simp only [List.lookup] at h
    cases hk : (k == k1)
    · rw [hk] at h
      simp only [Bool.false_eq_true] at *
      exact List.mem_cons_of_mem _ (ih h)
    · rw [hk] at h
      simp only [Option.some.injEq] at h
      have : k = k1 := by
        have := (beq_iff_eq (a := k) (b := k1)).mp hk
        exact this
      subst this
      subst h
      exact List.mem_cons_self _ _

theorem lookup_none_not_key (l : List (String × List String)) (k : String)
    (h : l.lookup k = none) : ∀ p ∈ l, p.1 ≠ k := by
  induction l with
  | nil => simp
  | cons p t ih =>
    rcases p with ⟨k1, v1⟩
    simp only [List.lookup] at h
    cases hk : (k == k1)
    · rw [hk] at h
      simp only [Bool.false_eq_true] at *
      intro q hq
      rcases List.mem_cons.mp hq with rfl | hq'
      · intro hc
        subst hc
        simp at hk
      · exact ih h q hq'
    · rw [hk] at h
      simp at h

theorem conflict_mono (l l' : List (String × List String))
    (hsub : ∀ x ∈ l, x ∈ l') (h : Conflict l) : Conflict l' := by
  rcases h with ⟨p, hp, q, hq, h1, h2⟩
  exact ⟨p, hsub p hp, q, hsub q hq, h1, h2⟩

theorem update_results_spec (info : List (String × List String)) :
    ∀ seen res, LoadInv seen res →
      (∀ res', update_results res info = .ok res' → LoadInv (seen ++ info) res')
      ∧ (update_results res info = .error .mk → Conflict (seen ++ info)) := by
  induction info with
  | nil =>
    intro seen res hinv
    constructor
    · intro res' h
      simp only [update_results] at h
      injection h with h
      subst h
      simpa using hinv
    · intro h
      simp [update_results] at h
  | cons p rest ih =>
    intro seen res hinv
    rcases p with ⟨f, args⟩
    have hasc : seen ++ (f, args) :: rest = (seen ++ [(f, args)]) ++ rest := by
      simp
    constructor
    · intro res' h
      simp only [update_results] at h
      cases hl : res.lookup f with
      | some prev =>
        rw [hl] at h
        dsimp only [] at h
        by_cases he : eqset prev args = true
        · rw [if_pos he] at h
          have hinv' : LoadInv (seen ++ [(f, args)]) res := by
            rcases hinv with ⟨h1, h2, h3⟩
            refine ⟨h1, ?_, ?_⟩
            · intro q hq
              exact List.mem_append_left _ (h2 q hq)
            · intro q hq
              rcases List.mem_append.mp hq with hq' | hq'
              · rcases h3 q hq' with ⟨b, hb1, hb2⟩
                exact ⟨b, hb1, hb2⟩
              · rcases List.mem_singleton.mp hq' with rfl
                exact ⟨prev, hl, he⟩
          rw [hasc]
          exact ((ih _ res hinv').1) res' h
        · rw [if_neg he] at h
          exact absurd h (by simp)
      | none =>
        rw [hl] at h
        dsimp only [] at h
        have hinv' : LoadInv (seen ++ [(f, args)]) (res ++ [(f, args)]) := by
          rcases hinv with ⟨h1, h2, h3⟩
          refine ⟨?_, ?_, ?_⟩
          · simp only [List.map_append, List.map_cons, List.map_nil]
            rw [List.nodup_append]
            refine ⟨h1, List.nodup_singleton f, ?_⟩
            intro x hx hx'
            rcases List.mem_singleton.mp hx' with rfl
            rcases List.mem_map.mp hx with ⟨q, hq, rfl⟩
            exact absurd rfl (lookup_none_not_key res q.1 hl q hq)
          · intro q hq
            rcases List.mem_append.mp hq with hq' | hq'
            · exact List.mem_append_left _ (h2 q hq')
            · exact List.mem_append_right _ hq'
          · intro q hq
            rcases List.mem_append.mp hq with hq' | hq'
            · rcases h3 q hq' with ⟨b, hb1, hb2⟩
              exact ⟨b, lookup_append_some res [(f, args)] q.1 b hb1, hb2⟩
            · rcases List.mem_singleton.mp hq' with rfl
              refine ⟨args, ?_, eqset_refl args⟩
              rw [lookup_append_none res [(f, args)] f hl]
              simp [List.lookup]
        rw [hasc]
        exact ((ih _ _ hinv').1) res' h
    · intro h
      simp only [update_results] at h
      cases hl : res.lookup f with
      | some prev =>
        rw [hl] at h
        dsimp only [] at h
        by_cases he : eqset prev args = true
        · rw [if_pos he] at h
          have hinv' : LoadInv (seen ++ [(f, args)]) res := by
            rcases hinv with ⟨h1, h2, h3⟩
            refine ⟨h1, ?_, ?_⟩
            · intro q hq
              exact List.mem_append_left _ (h2 q hq)
            · intro q hq
              rcases List.mem_append.mp hq with hq' | hq'
              · rcases h3 q hq' with ⟨b, hb1, hb2⟩
                exact ⟨b, hb1, hb2⟩
              · rcases List.mem_singleton.mp hq' with rfl
                exact ⟨prev, hl, he⟩
          rw [hasc]
          exact ((ih _ res hinv').2) h
        · refine ⟨(f, prev), ?_, (f, args), ?_, rfl, ?_⟩
          · exact List.mem_append_left _ (hinv.2.1 _ (lookup_some_mem res f prev hl))
          · exact List.mem_append_right _ (List.mem_cons_self _ _)
          · exact Bool.eq_false_iff.mpr he
      | none =>
        rw [hl] at h
        dsimp only [] at h
        have hinv' : LoadInv (seen ++ [(f, args)]) (res ++ [(f, args)]) := by
          rcases hinv with ⟨h1, h2, h3⟩
          refine ⟨?_, ?_, ?_⟩
          · simp only [List.map_append, List.map_cons, List.map_nil]
            rw [List.nodup_append]
            refine ⟨h1, List.nodup_singleton f, ?_⟩
            intro x hx hx'
            rcases List.mem_singleton.mp hx' with rfl
            rcases List.mem_map.mp hx with ⟨q, hq, rfl⟩
            exact absurd rfl (lookup_none_not_key res q.1 hl q hq)
          · intro q hq
            rcases List.mem_append.mp hq with hq' | hq'
            · exact List.mem_append_left _ (h2 q hq')
            · exact List.mem_append_right _ hq'
          · intro q hq
            rcases List.mem_append.mp hq with hq' | hq'
            · rcases h3 q hq' with ⟨b, hb1, hb2⟩
              exact ⟨b, lookup_append_some res [(f, args)] q.1 b hb1, hb2⟩
            · rcases List.mem_singleton.mp hq' with rfl
              refine ⟨args, ?_, eqset_refl args⟩
              rw [lookup_append_none res [(f, args)] f hl]
              simp [List.lookup]
        rw [hasc]
        exact ((ih _ _ hinv').2) h

theorem derivs_cons (ex : String → Bool) (line : String) (rest : List String) :
    derivs ex (line :: rest) = process_data_line ex line ++ derivs ex rest := by
  simp [derivs]

theorem load_lines_spec (ex : String → Bool) (lines : List String) :
    ∀ seen res, LoadInv seen res →
      (∀ res', load_lines ex res lines = .ok res' →
        LoadInv (seen ++ derivs ex lines) res')
      ∧ (load_lines ex res lines = .error .mk →
        Conflict (seen ++ derivs ex lines)) := by
  induction lines with
  | nil =>
    intro seen res hinv
    constructor
    · intro res' h
      simp only [load_lines] at h
      injection h with h
      subst h
      simpa [derivs] using hinv
    · intro h
      simp [load_lines] at h
  | cons line rest ih =>
    intro seen res hinv
    have hasc : seen ++ derivs ex (line :: rest)
        = (seen ++ process_data_line ex line) ++ derivs ex rest := by
      rw [derivs_cons]
      simp
    constructor
    · intro res' h
      simp only [load_lines] at h
      cases hu : update_results res (process_data_line ex line) with
      | error e =>
        rw [hu] at h
        exact absurd h (by simp)
      | ok res1 =>
        rw [hu] at h
        dsimp only [] at h
        have hinv1 :=
          ((update_results_spec (process_data_line ex line) seen res hinv).1) res1 hu
        rw [hasc]
        exact ((ih _ res1 hinv1).1) res' h
    · intro h
      simp only [load_lines] at h
      cases hu : update_results res (process_data_line ex line) with
      | error e =>
        cases e
        have hc :=
          ((update_results_spec (process_data_line ex line) seen res hinv).2) hu
        rw [hasc]
        exact conflict_mono _ _ (by intro x hx; simp at hx ⊢; tauto) hc
      | ok res1 =>
        rw [hu] at h
        dsimp only [] at h
        have hinv1 :=
          ((update_results_spec (process_data_line ex line) seen res hinv).1) res1 hu
        rw [hasc]
        exact ((ih _ res1 hinv1).2) h

/-- C2: `load_project_data` raises `CompileArgsError` exactly when two
derivations of the same source file carry set-unequal argument sets; on
success keys are unique, every record stems from a derivation, and every
derivation (in particular every repeated derivation of one file) is
represented by exactly one set-equal record; on the error no mapping is
returned at all (the `Except` is the propagated exception). -/
theorem C2_load_iff_conflict (ex : String → Bool) (lines : List String) :
    (load_project_data ex lines = .error .mk ↔ Conflict (derivs ex lines))
    ∧ ∀ res, load_project_data ex lines = .ok res →
        (res.map Prod.fst).Nodup ∧ (∀ p ∈ res, p ∈ derivs ex lines) ∧
        ∀ p ∈ derivs ex lines, ∃ b, res.lookup p.1 = some b ∧ eqset b p.2 = true := by
  have hinv0 : LoadInv [] [] := ⟨List.nodup_nil, by simp, by simp⟩
  have hspec := load_lines_spec ex lines [] [] hinv0
  constructor
  · constructor
    · intro h
      have := hspec.2 h
      simpa using this
    · intro hc
      cases hres : load_project_data ex lines with
      | error e => cases e; rfl
      | ok res =>
        exfalso
        have hinv := hspec.1 res hres
        simp only [List.nil_append] at hinv
        rcases hc with ⟨p, hp, q, hq, h1, h2⟩
        rcases hinv.2.2 p hp with ⟨b, hb, hbp⟩
        rcases hinv.2.2 q hq with ⟨b', hb', hbq⟩
        rw [h1] at hb
        rw [hb] at hb'
        injection hb' with hbb
        subst hbb
        have hgood : eqset p.2 q.2 = true :=
          eqset_trans _ _ _ (eqset_symm _ _ hbp) hbq
        rw [hgood] at h2
        exact Bool.noConfusion h2
  · intro res hres
    have hinv := hspec.1 res hres
    simp only [List.nil_append] at hinv
    exact ⟨hinv.1, hinv.2.1, hinv.2.2⟩

theorem stepArg_noflag (ex : String → Bool) (st : LineState) (arg : String)
    (h : "-o" ∉ st.args ∧ "-c" ∉ st.args ∧ "-emit-ast" ∉ st.args ∧
      "-fsyntax-only" ∉ st.args ∧ "-o" ∉ st.sourceFiles) :
    "-o" ∉ (stepArg ex st arg).args ∧ "-c" ∉ (stepArg ex st arg).args ∧
      "-emit-ast" ∉ (stepArg ex st arg).args ∧
      "-fsyntax-only" ∉ (stepArg ex st arg).args ∧
      "-o" ∉ (stepArg ex st arg).sourceFiles := by
  obtain ⟨h1, h2, h3, h4, h5⟩ := h
  unfold stepArg
  split_ifs with c1 c2 c3 c4 c5
  · exact ⟨h1, h2, h3, h4, h5⟩
  · refine ⟨h1, h2, h3, h4, ?_⟩
    simp only [mem_insertSet]
    rintro (hm | rfl)
    · exact h5 hm
    · exact absurd c2 (by decide)
  · exact ⟨h1, h2, h3, h4, h5⟩
  · exact ⟨h1, h2, h3, h4, h5⟩
  · exact ⟨h1, h2, h3, h4, h5⟩
  · constructor
    · simp only [mem_insertSet]
      rintro (hm | rfl)
      · exact h1 hm
      · exact c5 rfl
    constructor
    · simp only [mem_insertSet]
      rintro (hm | rfl)
      · exact h2 hm
      · exact c4 (by simp)
    constructor
    · simp only [mem_insertSet]
      rintro (hm | rfl)
      · exact h3 hm
      · exact c4 (by simp)
    constructor
    · simp only [mem_insertSet]
      rintro (hm | rfl)
      · exact h4 hm
      · exact c4 (by simp)
    · exact h5

theorem processTokens_noflag (ex : String → Bool) (toks : List String) :
    "-o" ∉ (processTokens ex toks).args ∧ "-c" ∉ (processTokens ex toks).args ∧
      "-emit-ast" ∉ (processTokens ex toks).args ∧
      "-fsyntax-only" ∉ (processTokens ex toks).args ∧
      "-o" ∉ (processTokens ex toks).sourceFiles := by
  suffices h : ∀ st : LineState,
      ("-o" ∉ st.args ∧ "-c" ∉ st.args ∧ "-emit-ast" ∉ st.args ∧
        "-fsyntax-only" ∉ st.args ∧ "-o" ∉ st.sourceFiles) →
      ("-o" ∉ (List.foldl (stepArg ex) st toks).args ∧
        "-c" ∉ (List.foldl (stepArg ex) st toks).args ∧
        "-emit-ast" ∉ (List.foldl (stepArg ex) st toks).args ∧
        "-fsyntax-only" ∉ (List.foldl (stepArg ex) st toks).args ∧
        "-o" ∉ (List.foldl (stepArg ex) st toks).sourceFiles) by
    exact h ⟨false, [], []⟩ (by simp)
  induction toks with
  | nil => intro st hst; simpa using hst
  | cons t ts ih =>
    intro st hst
    simp only [List.foldl_cons]
    exact ih (stepArg ex st t) (stepArg_noflag ex st t hst)

theorem processTokens_skip_indep (ex : String → Bool) (pre post : List String)
    (fname gname : String) (h : (processTokens ex pre).skipNext = false) :
    processTokens ex (pre ++ "-o" :: fname :: post)
      = processTokens ex (pre ++ "-o" :: gname :: post) := by
  have hst : ∀ st : LineState, st.skipNext = false →
      stepArg ex st "-o" = { st with skipNext := true } := by
    intro st hs
    unfold stepArg
    rw [if_neg (by simp [hs])]
    rw [if_neg (by decide)]
    rw [if_neg (by decide)]
    rw [if_pos rfl]
  have hstep : ∀ (st : LineState) (x : String), st.skipNext = true →
      stepArg ex st x = { st with skipNext := false } := by
    intro st x hs
    unfold stepArg
    rw [if_pos hs]
  unfold processTokens at h ⊢
  rw [List.foldl_append, List.foldl_append]
  simp only [List.foldl_cons]
  rw [hst _ h]
  rw [hstep _ fname rfl, hstep _ gname rfl]

/-- C3: an output flag and its associated filename are both discarded: when
the `-o` token is read in flag position (the skip flag is clear after the
preceding tokens), the parse result does not depend on the following
filename token at all, so that token reaches neither an argument set nor
the source-file set; and the tokens `-o`, `-c`, `-emit-ast` and
`-fsyntax-only` never appear in any resulting argument set (nor as source
files), on any line. -/
theorem C3_output_flag_discarded (ex : String → Bool) (pre post : List String)
    (fname gname : String) (h : (processTokens ex pre).skipNext = false) :
    processTokens ex (pre ++ "-o" :: fname :: post)
      = processTokens ex (pre ++ "-o" :: gname :: post)
    ∧ (∀ toks : List String,
        "-o" ∉ (processTokens ex toks).args ∧
        "-c" ∉ (processTokens ex toks).args ∧
        "-emit-ast" ∉ (processTokens ex toks).args ∧
        "-fsyntax-only" ∉ (processTokens ex toks).args ∧
        "-o" ∉ (processTokens ex toks).sourceFiles)
    ∧ ∀ line f aset, (f, aset) ∈ process_data_line ex line →
        "-o" ∉ aset ∧ "-c" ∉ aset ∧ "-emit-ast" ∉ aset ∧
        "-fsyntax-only" ∉ aset ∧ f ≠ "-o" := by
  refine ⟨processTokens_skip_indep ex pre post fname gname h,
    processTokens_noflag ex, ?_⟩
  intro line f aset hm
  simp only [process_data_line, List.mem_map] at hm
  rcases hm with ⟨g, hg, heq⟩
  injection heq with heq1 heq2
  subst heq1
  subst heq2
  have hnf := processTokens_noflag ex (splitOnSpace line)
  refine ⟨hnf.1, hnf.2.1, hnf.2.2.1, hnf.2.2.2.1, ?_⟩
  intro hc
  subst hc
  exact hnf.2.2.2.2 hg

/-- C8 (code bug): the tokens are produced by `line.split(" ")`, not
whitespace splitting: the trailing newline stays attached to the last
token and tab characters never separate tokens, so the source file `a.c`
at the end of the newline-terminated line `"cc a.c\n"` (as the in-repo
wrapper `creplace.py` writes it and Python file iteration yields it) is
not recognized — no record is produced and the corrupted token lands in
the argument set — whereas the same line without the trailing newline is
parsed as the claim describes; runs of spaces likewise produce empty
tokens that land in the argument set. -/
theorem C8_split_newline_bug :
    process_data_line exTrue "cc a.c\n" = []
    ∧ splitOnSpace "cc a.c\n" = ["cc", "a.c\n"]
    ∧ (processTokens exTrue (splitOnSpace "cc a.c\n")).args = ["cc", "a.c\n"]
    ∧ process_data_line exTrue "cc a.c" = [("a.c", ["cc"])]
    ∧ splitOnSpace "a.c\t-I." = ["a.c\t-I."]
    ∧ (processTokens exTrue (splitOnSpace "cc  a.c")).args = ["cc", ""] := by
  refine ⟨?_, ?_, ?_, ?_, ?_, ?_⟩ <;> decide

theorem reach_cases_depth1 (F m : AstNode) (hm : Reach F m)
    (hstop : ∀ c ∈ F.children, stopNode c = true) :
    m = F ∨ m ∈ F.children := by
  rcases (reach_iff F m).mp hm with rfl | ⟨hs, c, hc, hr⟩
  · exact Or.inl rfl
  · rcases (reach_iff c m).mp hr with rfl | ⟨hs', _, _, _⟩
    · exact Or.inr hc
    · rw [hstop c hc] at hs'
      exact absurd hs' (by simp)

/-- C1 (counterexample): on a function calling the sentinel with the two
distinct non-empty literals `"zs"` and `"ss"`, `process_function` raises
nothing and returns both strings; no ambiguity failure exists anywhere in
the code (`FunctionProcessingError` is defined but never raised). -/
theorem C1_counterexample :
    process_function ambF = .ok (some ["zs", "ss"], 0) := by
  simp [process_function, processLoop, ambF, funcN, callN, wrapN, refN, litTok,
    calleeName, get_child, extract_fmt_str, get_tokens, stripQuotes,
    AstNode.children, AstNode.kind, AstNode.displayname, ZEND_FUNC, insertSet,
    AstNode.tokens]
  decide

/-- C1 (amended): when the candidate format-string set of a function holds
two or more distinct non-empty literals, the scanner does not fail: it
returns a duplicate-free result containing all of them. -/
theorem C1_returns_all_distinct (fc : AstNode) (s1 s2 : String)
    (m1 m2 : AstNode) (hnb : ∀ m, Reach fc m → badNode m = false)
    (h1 : Reach fc m1) (g1 : goodNode m1 s1)
    (h2 : Reach fc m2) (g2 : goodNode m2 s2) (hne : s1 ≠ s2) :
    ∃ fs cnt, process_function fc = .ok (some fs, cnt)
      ∧ s1 ∈ fs ∧ s2 ∈ fs ∧ fs.Nodup := by
  cases hr : processLoop [fc] [] 0 with
  | error e =>
    exfalso
    rcases (processLoop_error_iff [fc] [] 0).mp ⟨e, hr⟩ with
      ⟨m, ⟨n, hn, hnm⟩, hbad⟩
    rcases List.mem_singleton.mp hn with rfl
    rw [hnb m hnm] at hbad
    exact Bool.noConfusion hbad
  | ok p =>
    rcases p with ⟨fs, cnt⟩
    have hmem1 : s1 ∈ fs := by
      rw [processLoop_ok_mem [fc] [] 0 fs cnt hr s1]
      exact Or.inr ⟨m1, ⟨fc, List.mem_singleton_self fc, h1⟩, g1⟩
    have hmem2 : s2 ∈ fs := by
      rw [processLoop_ok_mem [fc] [] 0 fs cnt hr s2]
      exact Or.inr ⟨m2, ⟨fc, List.mem_singleton_self fc, h2⟩, g2⟩
    have hnd := processLoop_ok_nodup [fc] [] 0 fs cnt hr List.nodup_nil
    have hlen : fs.length ≠ 0 := by
      intro hc
      rw [List.length_eq_zero.mp hc] at hmem1
      simp at hmem1
    refine ⟨fs, cnt, ?_, hmem1, hmem2, hnd⟩
    unfold process_function
    rw [hr]
    dsimp only []
    rw [if_pos hlen]

/-- C1 (witness): the amended theorem applied to the concrete
two-literal function `ambF`. -/
theorem C1_witness :
    ∃ fs cnt, process_function ambF = .ok (some fs, cnt)
      ∧ "zs" ∈ fs ∧ "ss" ∈ fs ∧ fs.Nodup := by
  refine C1_returns_all_distinct ambF "zs" "ss"
    (callN ZEND_FUNC "a" (litTok "\"zs\""))
    (callN ZEND_FUNC "b" (litTok "\"ss\"")) ?_ ?_ ?_ ?_ ?_ (by decide)
  · intro m hm
    have hstop : ∀ c ∈ ambF.children, stopNode c = true := by
      intro c hc
      simp [ambF, funcN, AstNode.children] at hc
      rcases hc with rfl | rfl
      · decide
      · decide
    rcases reach_cases_depth1 ambF m hm hstop with rfl | hmem
    · decide
    · simp [ambF, funcN, AstNode.children] at hmem
      rcases hmem with rfl | rfl
      · decide
      · decide
  · exact Reach.step (by decide) (by simp [ambF, funcN, AstNode.children])
      (Reach.refl _)
  · exact ⟨by decide, by decide, by decide⟩
  · exact Reach.step (by decide) (by simp [ambF, funcN, AstNode.children])
      (Reach.refl _)
  · exact ⟨by decide, by decide, by decide⟩

/-- C4: a sentinel call whose unwrapped format-string argument is not a
string literal is an expected, counted outcome: the traversal step adds
one to the variable-argument counter, leaves the format-string set
untouched, raises nothing (it simply continues with the remaining queue),
and such a call contributes no entry to the set (it is not a `goodNode`
for any string); the internal `VariableArgumentError` is consumed inside
the step and never escapes. -/
theorem C4_variable_argument_counted (n : AstNode) (rest : List AstNode)
    (fs : List String) (cnt : Nat)
    (hk : n.kind = CursorKind.CALL_EXPR)
    (hc : calleeName n = some ZEND_FUNC)
    (he : extract_fmt_str n.children = .varArg) :
    processLoop (n :: rest) fs cnt = processLoop rest fs (cnt + 1)
    ∧ ∀ s, ¬ goodNode n s := by
  exact ⟨processLoop_var n rest fs cnt hk hc he,
    fun s => goodNode_not_var n s he⟩

/-- C4 (witness): the concrete variable-argument call `varArgCall`, and
the resulting whole-function outcome on `varF`: counter delta one, no
format strings, no error. -/
theorem C4_witness :
    (processLoop [varArgCall] [] 0 = processLoop [] [] (0 + 1)
      ∧ ∀ s, ¬ goodNode varArgCall s)
    ∧ process_function varF = .ok (none, 1) := by
  constructor
  · exact C4_variable_argument_counted varArgCall [] [] 0 (by decide)
      (by decide) (by decide)
  · simp [process_function, processLoop, varF, varArgCall, funcN, callN,
      wrapN, refN, calleeName, get_child, extract_fmt_str, get_tokens,
      AstNode.children, AstNode.kind, AstNode.displayname, ZEND_FUNC,
      AstNode.tokens]

theorem get_tokens_get0 (t : AstNode) : ∃ x, (get_tokens t).get? 0 = some x := by
  unfold get_tokens
  cases hl : t.tokens with
  | nil => exact ⟨none, by simp⟩
  | cons a l => exact ⟨a, by simp⟩

/-- C10: the extraction chain is exactly as total as the AST shape allows:
for a call expression, a missing first child, a childless first child, a
missing third child (on a recognized sentinel call), a childless third
child, or a childless unwrapped third child each aborts the scan with the
uncaught `IndexError` (never the counted non-literal outcome); and when
the three positional accesses all succeed, no index access is out of
range (`get_tokens` never returns an empty list), so extraction yields a
string or the counted non-literal outcome. -/
theorem C10_extraction_shape (n : AstNode) (rest : List AstNode)
    (fs : List String) (cnt : Nat) (hk : n.kind = CursorKind.CALL_EXPR) :
    (n.children.get? 0 = none →
      processLoop (n :: rest) fs cnt = .error .indexError)
    ∧ (∀ c0, n.children.get? 0 = some c0 → c0.children.get? 0 = none →
      processLoop (n :: rest) fs cnt = .error .indexError)
    ∧ (calleeName n = some ZEND_FUNC → n.children.get? 2 = none →
      processLoop (n :: rest) fs cnt = .error .indexError)
    ∧ (∀ n2, calleeName n = some ZEND_FUNC → n.children.get? 2 = some n2 →
      n2.children.get? 0 = none →
      processLoop (n :: rest) fs cnt = .error .indexError)
    ∧ (∀ n2 u, calleeName n = some ZEND_FUNC → n.children.get? 2 = some n2 →
      n2.children.get? 0 = some u → u.children.get? 0 = none →
      processLoop (n :: rest) fs cnt = .error .indexError)
    ∧ (∀ n2 u t, n.children.get? 2 = some n2 → n2.children.get? 0 = some u →
      u.children.get? 0 = some t → extract_fmt_str n.children ≠ .idxErr) := by
  refine ⟨?_, ?_, ?_, ?_, ?_, ?_⟩
  · intro h0
    refine processLoop_noname n rest fs cnt hk ?_
    unfold calleeName
    rw [h0]
  · intro c0 h0 h0c
    refine processLoop_noname n rest fs cnt hk ?_
    unfold calleeName
    rw [h0]
    dsimp only []
    unfold get_child
    rw [h0c]
    rfl
  · intro hc h2
    refine processLoop_idx n rest fs cnt hk hc ?_
    unfold extract_fmt_str
    rw [h2]
  · intro n2 hc h2 h20
    refine processLoop_idx n rest fs cnt hk hc ?_
    unfold extract_fmt_str
    rw [h2]
    dsimp only []
    unfold get_child
    rw [h20]
  · intro n2 u hc h2 h20 hu0
    refine processLoop_idx n rest fs cnt hk hc ?_
    unfold extract_fmt_str
    rw [h2]
    dsimp only []
    unfold get_child
    rw [h20]
    dsimp only []
    rw [hu0]
  · intro n2 u t h2 h20 hu0
    unfold extract_fmt_str
    rw [h2]
    dsimp only []
    unfold get_child
    rw [h20]
    dsimp only []
    rw [hu0]
    dsimp only []
    by_cases hkind : t.kind ≠ CursorKind.STRING_LITERAL
    · rw [if_pos hkind]
      exact fun hcon => ExtractResult.noConfusion hcon
    · rw [if_neg hkind]
      rcases get_tokens_get0 t with ⟨x, hx⟩
      rw [hx]
      cases x with
      | none => exact fun hcon => ExtractResult.noConfusion hcon
      | some sp => exact fun hcon => ExtractResult.noConfusion hcon

/-- C10 (witness): the conjunction instantiated at a concrete childless
call expression. -/
theorem C10_witness :
    ((AstNode.node .CALL_EXPR "" "" "b.c" [] []).children.get? 0 = none →
      processLoop [AstNode.node .CALL_EXPR "" "" "b.c" [] []] [] 0
        = .error .indexError)
    ∧ (∀ c0, (AstNode.node .CALL_EXPR "" "" "b.c" [] []).children.get? 0 = some c0 →
      c0.children.get? 0 = none →
      processLoop [AstNode.node .CALL_EXPR "" "" "b.c" [] []] [] 0
        = .error .indexError)
    ∧ (calleeName (AstNode.node .CALL_EXPR "" "" "b.c" [] []) = some ZEND_FUNC →
      (AstNode.node .CALL_EXPR "" "" "b.c" [] []).children.get? 2 = none →
      processLoop [AstNode.node .CALL_EXPR "" "" "b.c" [] []] [] 0
        = .error .indexError)
    ∧ (∀ n2, calleeName (AstNode.node .CALL_EXPR "" "" "b.c" [] []) = some ZEND_FUNC →
      (AstNode.node .CALL_EXPR "" "" "b.c" [] []).children.get? 2 = some n2 →
      n2.children.get? 0 = none →
      processLoop [AstNode.node .CALL_EXPR "" "" "b.c" [] []] [] 0
        = .error .indexError)
    ∧ (∀ n2 u, calleeName (AstNode.node .CALL_EXPR "" "" "b.c" [] []) = some ZEND_FUNC →
      (AstNode.node .CALL_EXPR "" "" "b.c" [] []).children.get? 2 = some n2 →
      n2.children.get? 0 = some u → u.children.get? 0 = none →
      processLoop [AstNode.node .CALL_EXPR "" "" "b.c" [] []] [] 0
        = .error .indexError)
    ∧ (∀ n2 u t, (AstNode.node .CALL_EXPR "" "" "b.c" [] []).children.get? 2 = some n2 →
      n2.children.get? 0 = some u → u.children.get? 0 = some t →
      extract_fmt_str (AstNode.node .CALL_EXPR "" "" "b.c" [] []).children ≠ .idxErr) :=
  C10_extraction_shape (AstNode.node .CALL_EXPR "" "" "b.c" [] []) [] [] 0 rfl

theorem nodup_mem_singleton (l : List String) (s : String) (hnd : l.Nodup)
    (hmem : ∀ x, x ∈ l ↔ x = s) : l = [s] := by
  cases l with
  | nil =>
    exfalso
    have := (hmem s).mpr rfl
    simp at this
  | cons a t =>
    have ha : a = s := (hmem a).mp (List.mem_cons_self a t)
    subst ha
    have hnt : a ∉ t := (List.nodup_cons.mp hnd).1
    have ht : t = [] := by
      rw [List.eq_nil_iff_forall_not_mem]
      intro x hx
      have hxa : x = a := (hmem x).mp (List.mem_cons_of_mem a hx)
      subst hxa
      exact hnt hx
    rw [ht]

/-- C5: a function all of whose (two or more, pairwise distinct as call
cursors) sentinel calls extract the same non-empty literal `s`, and whose
traversal meets no index failure, collapses the duplicates via set
insertion: the scanner returns exactly the single-entry result `[s]` and
raises no ambiguity error. -/
theorem C5_identical_literals_collapse (fc : AstNode) (s : String)
    (m1 m2 : AstNode)
    (hnb : ∀ m, Reach fc m → badNode m = false)
    (hall : ∀ m, Reach fc m → isSentinel m = true →
      extract_fmt_str m.children = .ok s)
    (hs : s ≠ "")
    (h1 : Reach fc m1) (hs1 : isSentinel m1 = true)
    (h2 : Reach fc m2) (hs2 : isSentinel m2 = true) (hne : m1 ≠ m2) :
    ∃ cnt, process_function fc = .ok (some [s], cnt) := by
  cases hr : processLoop [fc] [] 0 with
  | error e =>
    exfalso
    rcases (processLoop_error_iff [fc] [] 0).mp ⟨e, hr⟩ with
      ⟨m, ⟨n, hn, hnm⟩, hbad⟩
    rcases List.mem_singleton.mp hn with rfl
    rw [hnb m hnm] at hbad
    exact Bool.noConfusion hbad
  | ok p =>
    rcases p with ⟨fs, cnt⟩
    have hmem : ∀ x, x ∈ fs ↔ x = s := by
      intro x
      rw [processLoop_ok_mem [fc] [] 0 fs cnt hr x]
      constructor
      · rintro (hx | ⟨m, ⟨n, hn, hnm⟩, hg⟩)
        · simp at hx
        · rcases List.mem_singleton.mp hn with rfl
          rcases hg with ⟨hg1, hg2, hg3⟩
          have := hall m hnm hg1
          rw [this] at hg2
          exact ((ExtractResult.ok.injEq s x).mp hg2).symm
      · rintro rfl
        refine Or.inr ⟨m1, ⟨fc, List.mem_singleton_self fc, h1⟩, ?_⟩
        exact ⟨hs1, hall m1 h1 hs1, hs⟩
    have hnd := processLoop_ok_nodup [fc] [] 0 fs cnt hr List.nodup_nil
    have hfs : fs = [s] := nodup_mem_singleton fs s hnd hmem
    subst hfs
    refine ⟨cnt, ?_⟩
    unfold process_function
    rw [hr]
    dsimp only []
    rw [if_pos (by simp)]

/-- C5 (witness): the concrete function `sameF` whose two distinct sentinel
call cursors both pass the literal `"zs"`. -/
theorem C5_witness : ∃ cnt, process_function sameF = .ok (some ["zs"], cnt) := by
  refine C5_identical_literals_collapse sameF "zs"
    (callN ZEND_FUNC "a" (litTok "\"zs\""))
    (callN ZEND_FUNC "b" (litTok "\"zs\"")) ?_ ?_ (by decide) ?_ (by decide)
    ?_ (by decide) ?_
  · intro m hm
    have hstop : ∀ c ∈ sameF.children, stopNode c = true := by
      intro c hc
      simp [sameF, funcN, AstNode.children] at hc
      rcases hc with rfl | rfl
      · decide
      · decide
    rcases reach_cases_depth1 sameF m hm hstop with rfl | hmem
    · decide
    · simp [sameF, funcN, AstNode.children] at hmem
      rcases hmem with rfl | rfl
      · decide
      · decide
  · intro m hm hsent
    have hstop : ∀ c ∈ sameF.children, stopNode c = true := by
      intro c hc
      simp [sameF, funcN, AstNode.children] at hc
      rcases hc with rfl | rfl
      · decide
      · decide
    rcases reach_cases_depth1 sameF m hm hstop with rfl | hmem
    · exact absurd hsent (by decide)
    · simp [sameF, funcN, AstNode.children] at hmem
      rcases hmem with rfl | rfl
      · decide
      · decide
  · exact Reach.step (by decide) (by simp [sameF, funcN, AstNode.children])
      (Reach.refl _)
  · exact Reach.step (by decide) (by simp [sameF, funcN, AstNode.children])
      (Reach.refl _)
  · intro hcon
    simp [callN, wrapN, refN, litTok] at hcon

theorem paf_loop_skip_none (filter : Option String) (g : Bool) (fc : AstNode)
    (cs : List AstNode) (res : List (String × List String)) (acc c : Nat)
    (hkind : fc.kind = CursorKind.FUNCTION_DECL)
    (hf1 : (match filter with
            | some f => fc.locFile != f
            | none => false) = false)
    (hf2 : (g && !(pyStartsWith fc.spelling "zif_")) = false)
    (hpf : process_function fc = .ok (none, c)) :
    paf_loop filter g (fc :: cs) res acc = paf_loop filter g cs res (acc + c) := by
  conv_lhs => rw [paf_loop.eq_def]
  simp only [hkind, hf1, hf2, hpf, if_true, if_pos, Bool.false_eq_true,
    if_false, reduceIte]

/-- C6: a sentinel call whose literal strips to the empty string
contributes nothing: the traversal step leaves both the set and the
counter unchanged; a function whose every reachable sentinel call
extracts the empty literal (and whose traversal meets no index failure)
yields `None`, and `process_all_functions` then records nothing for it —
the function is omitted from the scan result. -/
theorem C6_empty_literal_filtered (n : AstNode) (rest : List AstNode)
    (fs : List String) (cnt : Nat) (fc : AstNode) (filter : Option String)
    (g : Bool) (cs : List AstNode) (res : List (String × List String))
    (acc : Nat)
    (hk : n.kind = CursorKind.CALL_EXPR)
    (hc : calleeName n = some ZEND_FUNC)
    (he : extract_fmt_str n.children = .ok "")
    (hnb : ∀ m, Reach fc m → badNode m = false)
    (hallE : ∀ m, Reach fc m → isSentinel m = true →
      extract_fmt_str m.children = .ok "")
    (hkind : fc.kind = CursorKind.FUNCTION_DECL)
    (hf1 : (match filter with
            | some f => fc.locFile != f
            | none => false) = false)
    (hf2 : (g && !(pyStartsWith fc.spelling "zif_")) = false) :
    processLoop (n :: rest) fs cnt = processLoop rest fs cnt
    ∧ ∃ c, process_function fc = .ok (none, c)
      ∧ paf_loop filter g (fc :: cs) res acc = paf_loop filter g cs res (acc + c) := by
  constructor
  · rw [processLoop_okstr n rest fs cnt "" hk hc he]
    rw [if_neg (by decide)]
  · cases hr : processLoop [fc] [] 0 with
    | error e =>
      exfalso
      rcases (processLoop_error_iff [fc] [] 0).mp ⟨e, hr⟩ with
        ⟨m, ⟨x, hx, hxm⟩, hbad⟩
      rcases List.mem_singleton.mp hx with rfl
      rw [hnb m hxm] at hbad
      exact Bool.noConfusion hbad
    | ok p =>
      rcases p with ⟨fs', cnt'⟩
      have hempty : fs' = [] := by
        rw [List.eq_nil_iff_forall_not_mem]
        intro x hx
        rw [processLoop_ok_mem [fc] [] 0 fs' cnt' hr x] at hx
        rcases hx with hx | ⟨m, ⟨y, hy, hym⟩, hg⟩
        · simp at hx
        · rcases List.mem_singleton.mp hy with rfl
          rcases hg with ⟨hg1, hg2, hg3⟩
          have := hallE m hym hg1
          rw [this] at hg2
          exact hg3 ((ExtractResult.ok.injEq "" x).mp hg2).symm
      subst hempty
      have hpf : process_function fc = .ok (none, cnt') := by
        unfold process_function
        rw [hr]
        dsimp only []
        rw [if_neg (by simp)]
      exact ⟨cnt', hpf,
        paf_loop_skip_none filter g fc cs res acc cnt' hkind hf1 hf2 hpf⟩

/-- C6 (witness): the empty-literal call and function `emptyLitF`,
filtered under file filter `b.c` in a scan of no further cursors. -/
theorem C6_witness :
    processLoop [callN ZEND_FUNC "a" (litTok "\"\"")] [] 0 = processLoop [] [] 0
    ∧ ∃ c, process_function emptyLitF = .ok (none, c)
      ∧ paf_loop (some "b.c") false (emptyLitF :: []) [] 0
          = paf_loop (some "b.c") false [] [] (0 + c) := by
  refine C6_empty_literal_filtered (callN ZEND_FUNC "a" (litTok "\"\"")) [] [] 0
    emptyLitF (some "b.c") false [] [] 0 (by decide) (by decide) (by decide)
    ?_ ?_ (by decide) (by decide) (by decide)
  · intro m hm
    have hstop : ∀ c ∈ emptyLitF.children, stopNode c = true := by
      intro c hc
      simp [emptyLitF, funcN, AstNode.children] at hc
      subst hc
      decide
    rcases reach_cases_depth1 emptyLitF m hm hstop with rfl | hmem
    · decide
    · simp [emptyLitF, funcN, AstNode.children] at hmem
      subst hmem
      decide
  · intro m hm hsent
    have hstop : ∀ c ∈ emptyLitF.children, stopNode c = true := by
      intro c hc
      simp [emptyLitF, funcN, AstNode.children] at hc
      subst hc
      decide
    rcases reach_cases_depth1 emptyLitF m hm hstop with rfl | hmem
    · exact absurd hsent (by decide)
    · simp [emptyLitF, funcN, AstNode.children] at hmem
      subst hmem
      decide

theorem str_append_assoc (a b c : String) : a ++ b ++ c = a ++ (b ++ c) := by
  apply String.ext
  simp

theorem str_append_empty (a : String) : a ++ "" = a := by
  apply String.ext
  simp

theorem str_join_cons (s : String) (l : List String) :
    String.join (s :: l) = s ++ String.join l := by
  apply String.ext
  simp

/-- C7 (amended): in process-all-files mode a parse failure of one source
file is not caught: the exception aborts the whole run with the output
content as written so far, and the remaining source files are not
processed. -/
theorem C7_parse_failure_aborts
    (parse : String → List String → Except PyErr AstNode) (g : Bool)
    (src : String) (args : List String) (rest : List (String × List String))
    (content : String) (c1 c2 c3 : Nat) (e : PyErr)
    (h : parse src args = .error e) :
    runAllFiles parse g ((src, args) :: rest) content c1 c2 c3
      = (content, .error e) := by
  conv_lhs => rw [runAllFiles.eq_def]
  dsimp only []
  rw [h]

/-- C7 (counterexample): with `a.c` unparsable and `b.c` containing a
matching function, the all-files loop aborts at `a.c` having written
nothing — while processing `b.c` alone would have appended its block — so
the pipeline does not log-and-skip and does not continue with the rest. -/
theorem C7_counterexample :
    runAllFiles parseW false compW "" 0 0 0 = ("", .error .tuLoadError)
    ∧ runAllFiles parseW false [("b.c", [])] "" 0 0 0
        = ("# b.c\nzif_foo zs\n", .ok (1, 1, 0)) := by
  constructor
  · simp [runAllFiles, compW, parseW]
  · simp [runAllFiles, parseW, okTU, process_all_functions, paf_loop,
      process_function, processLoop, funcN, callN, wrapN, refN, litTok,
      calleeName, get_child, extract_fmt_str, get_tokens, stripQuotes,
      AstNode.children, AstNode.kind, AstNode.displayname, AstNode.spelling,
      AstNode.locFile, ZEND_FUNC, insertSet, insertDict, write_output,
      renderLine, AstNode.tokens, pyStartsWith]
    have hz : "zs".length = 2 := rfl
    rw [hz]
    simp [renderLine]
    apply String.ext
    simp
    decide

/-- C7 (witness): the amended theorem applied to the concrete record list
`compW` whose first file fails to parse. -/
theorem C7_witness :
    runAllFiles parseW false compW "" 0 0 0 = ("", .error .tuLoadError) :=
  C7_parse_failure_aborts parseW false "a.c" [] [("b.c", [])] "" 0 0 0
    .tuLoadError (by simp [parseW])

/-- C9: the all-files loop only ever appends to the output content: the
prior content (and with it every earlier block) is preserved verbatim,
and what is appended is a sequence of blocks, one per source file whose
scan produced at least one function, each consisting of the `# <file>`
header line followed by exactly the recorded function lines (one line per
function, `write_output` writes each `dict` entry once). -/
theorem C9_append_only_blocks
    (parse : String → List String → Except PyErr AstNode) (g : Bool)
    (comp : List (String × List String)) (content : String) (c1 c2 c3 : Nat) :
    ∃ blocks : List (String × List (String × List String)),
      (runAllFiles parse g comp content c1 c2 c3).1
        = content ++ String.join (blocks.map renderBlock)
      ∧ ∀ b ∈ blocks, b.2 ≠ [] ∧ ∃ args tu d, (b.1, args) ∈ comp ∧
          parse b.1 args = .ok tu ∧
          process_all_functions tu (some b.1) g = .ok (b.2, d) := by
  induction comp generalizing content c1 c2 c3 with
  | nil =>
    refine ⟨[], ?_, by simp⟩
    simp only [runAllFiles, List.map_nil]
    rw [show String.join [] = "" from rfl, str_append_empty]

  | cons p rest ih =>
    rcases p with ⟨src, args⟩
    cases hp : parse src args with
    | error e =>
      refine ⟨[], ?_, by simp⟩
      conv_lhs => rw [runAllFiles.eq_def]
      dsimp only []
      rw [hp]
      dsimp only []
      simp only [List.map_nil]
      rw [show String.join [] = "" from rfl, str_append_empty]
    | ok tu =>
      cases hpaf : process_all_functions tu (some src) g with
      | error e =>
        refine ⟨[], ?_, by simp⟩
        conv_lhs => rw [runAllFiles.eq_def]
        dsimp only []
        rw [hp]
        dsimp only []
        rw [hpaf]
        dsimp only []
        simp only [List.map_nil]
        rw [show String.join [] = "" from rfl, str_append_empty]
      | ok pr =>
        rcases pr with ⟨data, d⟩
        by_cases hd : data.length ≠ 0
        · rcases ih (write_output src data content) (c1 + 1)
            (c2 + data.length) (c3 + d) with ⟨bs, hbs1, hbs2⟩
          refine ⟨(src, data) :: bs, ?_, ?_⟩
          · conv_lhs => rw [runAllFiles.eq_def]
            dsimp only []
            rw [hp]
            dsimp only []
            rw [hpaf]
            dsimp only []
            rw [if_pos hd]
            rw [hbs1]
            rw [List.map_cons, str_join_cons]
            simp only [write_output, renderBlock, str_append_assoc]
          · intro b hb
            rcases List.mem_cons.mp hb with rfl | hb'
            · refine ⟨?_, args, tu, d, List.mem_cons_self _ _, hp, hpaf⟩
              intro hc
              dsimp only [] at hc
              rw [hc] at hd
              simp at hd
            · rcases hbs2 b hb' with ⟨hne, args', tu', d', hmem, hp', hpaf'⟩
              exact ⟨hne, args', tu', d', List.mem_cons_of_mem _ hmem, hp', hpaf'⟩
        · rcases ih content c1 c2 (c3 + d) with ⟨bs, hbs1, hbs2⟩
          refine ⟨bs, ?_, ?_⟩
          · conv_lhs => rw [runAllFiles.eq_def]
            dsimp only []
            rw [hp]
            dsimp only []
            rw [hpaf]
            dsimp only []
            rw [if_neg hd]
            exact hbs1
          · intro b hb
            rcases hbs2 b hb with ⟨hne, args', tu', d', hmem, hp', hpaf'⟩
            exact ⟨hne, args', tu', d', List.mem_cons_of_mem _ hmem, hp', hpaf'⟩

/-- C3 (witness): the theorem applied to a concrete line prefix `gcc`
with `-o out.o` and a trailing source token. -/
theorem C3_witness :
    processTokens exTrue (["gcc"] ++ "-o" :: "out.o" :: ["x.c"])
      = processTokens exTrue (["gcc"] ++ "-o" :: "other.o" :: ["x.c"])
    ∧ (∀ toks : List String,
        "-o" ∉ (processTokens exTrue toks).args ∧
        "-c" ∉ (processTokens exTrue toks).args ∧
        "-emit-ast" ∉ (processTokens exTrue toks).args ∧
        "-fsyntax-only" ∉ (processTokens exTrue toks).args ∧
        "-o" ∉ (processTokens exTrue toks).sourceFiles)
    ∧ ∀ line f aset, (f, aset) ∈ process_data_line exTrue line →
        "-o" ∉ aset ∧ "-c" ∉ aset ∧ "-emit-ast" ∉ aset ∧
        "-fsyntax-only" ∉ aset ∧ f ≠ "-o" :=
  C3_output_flag_discarded exTrue ["gcc"] ["x.c"] "out.o" "other.o" (by decide)
